import Mathlib

/-!
Verification of `thorlabs_cam` core logic.

A shallow embedding of the pure logic of `src/thorlabs_cam/thorlabs_cam.py`:
the overwrite-oldest `CircularQueue`, the controller's `get_nowait` and
`close`, the constructor's error paths, the acquisition thread's main loop
(sequence counter, fault handling, color-resource release), and the
monochrome bit-depth narrowing.

Queues are modelled as Lean lists with the head holding the oldest element,
matching `queue.Queue`, whose `_get` pops from the front of its deque and
whose `_put` appends at the back.
-/

namespace ThorlabsCam

/-- Model of `CircularQueue.put` (thorlabs_cam.py lines 37-55): under the lock, when
`maxsize > 0` and the current size has reached `maxsize`, the oldest element
is first removed (`self._get()`), then the new item is appended
(`self._put(item)`). With `maxsize <= 0` the queue is unbounded and the item
is appended directly. The `block`/`timeout` arguments are ignored. -/
def putQ {α : Type} (maxsize : ℕ) (q : List α) (item : α) : List α :=
  if 0 < maxsize ∧ maxsize ≤ q.length then q.tail ++ [item] else q ++ [item]

/-- Model of `queue.Queue.get_nowait` at the container level: on an empty queue the
base class raises `queue.Empty` (modelled as `none`); otherwise it removes
and returns the oldest element, the head of the list. -/
def takeQ {α : Type} (q : List α) : Option (α × List α) :=
  match q with
  | [] => none
  | h :: t => some (h, t)

/-- Sequential puts: fold `CircularQueue.put` over a list of items. -/
def putAll {α : Type} (maxsize : ℕ) (q : List α) (items : List α) : List α :=
  items.foldl (putQ maxsize) q

theorem putQ_length_le {α : Type} (maxsize : ℕ) (q : List α) (x : α)
    (hcap : 0 < maxsize) (h : q.length ≤ maxsize) :
    (putQ maxsize q x).length ≤ maxsize := by
  unfold putQ
  by_cases hfull : maxsize ≤ q.length
  · have hq : q ≠ [] := by
      intro he
      subst he
      simp at hfull
      omega
    simp [hcap, hfull, List.length_tail]
    omega
  · simp [hfull]
    omega

theorem putAll_eq_drop {α : Type} (maxsize : ℕ) (items : List α) :
    ∀ q : List α, 0 < maxsize → q.length ≤ maxsize →
    putAll maxsize q items = (q ++ items).drop (q.length + items.length - maxsize) := by
  induction items with
  | nil =>
    intro q hcap hlen
    simp only [putAll, List.foldl_nil, List.append_nil, List.length_nil, Nat.add_zero]
    have h0 : q.length - maxsize = 0 := by omega
    rw [h0, List.drop_zero]
  | cons x t ih =>
    intro q hcap hlen
    have hstep : putAll maxsize q (x :: t) = putAll maxsize (putQ maxsize q x) t := by
      simp [putAll]
    rw [hstep, ih (putQ maxsize q x) hcap (putQ_length_le maxsize q x hcap hlen)]
    by_cases hfull : maxsize ≤ q.length
    · have hq : q ≠ [] := by
        intro he
        subst he
        simp at hfull
        omega
      have hputs : putQ maxsize q x = q.tail ++ [x] := by
        simp [putQ, hcap, hfull]
      obtain ⟨h0, q', rfl⟩ : ∃ h0 q', q = h0 :: q' := by
        cases q with
        | nil => exact absurd rfl hq
        | cons a b => exact ⟨a, b, rfl⟩
      rw [hputs]
      simp only [List.tail_cons]
      rw [List.append_assoc, List.singleton_append, List.cons_append]
      have hB : (h0 :: q').length + (x :: t).length - maxsize
          = ((q' ++ [x]).length + t.length - maxsize) + 1 := by
        simp only [List.length_cons, List.length_append, List.length_nil]
        simp only [List.length_cons] at hfull
        omega
      rw [hB, List.drop_succ_cons]
    · have hputs : putQ maxsize q x = q ++ [x] := by
        simp [putQ, hfull]
      rw [hputs]
      rw [List.append_assoc, List.singleton_append]
      have hamt : (q ++ [x]).length + t.length - maxsize
          = q.length + (x :: t).length - maxsize := by
        simp only [List.length_append, List.length_cons, List.length_nil]
        omega
      rw [hamt]

theorem putAll_length_le {α : Type} (maxsize : ℕ) (items : List α) :
    ∀ q : List α, 0 < maxsize → q.length ≤ maxsize →
    (putAll maxsize q items).length ≤ maxsize := by
  induction items with
  | nil => intro q _ h; simpa [putAll] using h
  | cons x t ih =>
    intro q hcap hlen
    have hstep : putAll maxsize q (x :: t) = putAll maxsize (putQ maxsize q x) t := by
      simp [putAll]
    rw [hstep]
    exact ih _ hcap (putQ_length_le maxsize q x hcap hlen)

/-- C1: for every capacity C > 0 and every list of N > C items put
sequentially into an initially empty `CircularQueue` of capacity C, the
final queue is exactly the last C items in their original relative order
(`items.drop (N - C)`), and after every prefix of the puts the queue's
size is at most C. -/
theorem circularQueue_put_last_C (C : ℕ) (items : List ℕ)
    (hcap : 0 < C) (hlong : C < items.length) :
    putAll C [] items = items.drop (items.length - C) ∧
    (putAll C [] items).length = C ∧
    ∀ i : ℕ, (putAll C [] (items.take i)).length ≤ C := by
  have hmain : putAll C [] items = items.drop (items.length - C) := by
    have := putAll_eq_drop C items [] hcap (by simp)
    simpa using this
  refine ⟨hmain, ?_, ?_⟩
  · rw [hmain]
    simp
    omega
  · intro i
    exact putAll_length_le C (items.take i) [] hcap (by simp)

/-- C1 witness: capacity 2, puts of [1, 2, 3]. -/
theorem circularQueue_put_last_C_witness :
    putAll 2 [] [1, 2, 3] = ([1, 2, 3] : List ℕ).drop (([1, 2, 3] : List ℕ).length - 2) ∧
    (putAll 2 [] [1, 2, 3]).length = 2 ∧
    ∀ i : ℕ, (putAll 2 [] (([1, 2, 3] : List ℕ).take i)).length ≤ 2 :=
  circularQueue_put_last_C 2 [1, 2, 3] (by decide) (by decide)

/-! C2: FIFO order among non-evicted items

Items are identified by their put index (0 for the first put, 1 for the
second, ...). A trace state carries the queue (oldest first), the list of
taken indices in take order, and the next put index. `CircularQueue.put`
may evict the head (the oldest item); `get_nowait` removes the head. -/

/-- One trace operation on a `CircularQueue`: a producer put or a consumer
non-blocking take. -/
inductive QOp where
  | enq
  | deq
deriving DecidableEq

/-- Trace state: the queue of put indices (oldest first), the indices taken
so far in take order, and the index the next put will use. -/
structure TraceState where
  q : List ℕ
  taken : List ℕ
  next : ℕ
deriving DecidableEq

/-- One step of the interleaved put/take trace: `enq` runs
`CircularQueue.put` with the next fresh index, `deq` runs the base class
`get_nowait`, which removes the oldest item (and on an empty queue raises
`queue.Empty`, leaving the state unchanged). -/
def traceStep (maxsize : ℕ) (s : TraceState) : QOp → TraceState
  | QOp.enq => ⟨putQ maxsize s.q s.next, s.taken, s.next + 1⟩
  | QOp.deq =>
    match takeQ s.q with
    | none => s
    | some (h, t) => ⟨t, s.taken ++ [h], s.next⟩

/-- Run an interleaved sequence of puts and takes from the empty queue. -/
def traceRun (maxsize : ℕ) (ops : List QOp) : TraceState :=
  ops.foldl (traceStep maxsize) ⟨[], [], 0⟩

/-- The trace invariant: the taken indices followed by the queued indices
form a strictly increasing list, and every index mentioned is below the
next fresh index. -/
def TraceInv (s : TraceState) : Prop :=
  (s.taken ++ s.q).Pairwise (· < ·) ∧ ∀ x ∈ s.taken ++ s.q, x < s.next

theorem traceStep_inv (maxsize : ℕ) (s : TraceState) (op : QOp)
    (h : TraceInv s) : TraceInv (traceStep maxsize s op) := by
  obtain ⟨hpw, hlt⟩ := h
  cases op with
  | deq =>
    cases hq : s.q with
    | nil =>
      simp [traceStep, takeQ, hq]
      exact ⟨hpw, hlt⟩
    | cons h0 t =>
      simp only [traceStep, takeQ, hq]
      constructor
      · rw [List.append_assoc, List.singleton_append]
        rw [hq] at hpw
        exact hpw
      · intro x hx
        apply hlt
        rw [hq]
        rw [List.append_assoc, List.singleton_append] at hx
        exact hx
  | enq =>
    have hsub : (s.taken ++ (putQ maxsize s.q s.next).dropLast).Sublist (s.taken ++ s.q) := by
      apply List.Sublist.append_left
      unfold putQ
      by_cases hfull : 0 < maxsize ∧ maxsize ≤ s.q.length
      · rw [if_pos hfull]
        rw [List.dropLast_append_of_ne_nil _ (by simp)]
        simp only [List.dropLast_single, List.append_nil]
        exact (List.tail_sublist s.q).trans (List.Sublist.refl _)
      · rw [if_neg hfull]
        rw [List.dropLast_append_of_ne_nil _ (by simp)]
        simp only [List.dropLast_single, List.append_nil]
        exact List.Sublist.refl _
    have hform : s.taken ++ putQ maxsize s.q s.next
        = (s.taken ++ (putQ maxsize s.q s.next).dropLast) ++ [s.next] := by
      rw [List.append_assoc]
      congr 1
      unfold putQ
      by_cases hfull : 0 < maxsize ∧ maxsize ≤ s.q.length
      · rw [if_pos hfull, List.dropLast_append_of_ne_nil _ (by simp)]
        simp
      · rw [if_neg hfull, List.dropLast_append_of_ne_nil _ (by simp)]
        simp
    constructor
    · show (s.taken ++ putQ maxsize s.q s.next).Pairwise (· < ·)
      rw [hform]
      rw [List.pairwise_append]
      refine ⟨hpw.sublist hsub, List.pairwise_singleton _ _, ?_⟩
      intro x hx y hy
      simp only [List.mem_singleton] at hy
      subst hy
      exact hlt x (hsub.mem hx)
    · show ∀ x ∈ s.taken ++ putQ maxsize s.q s.next, x < s.next + 1
      intro x hx
      rw [hform, List.mem_append] at hx
      cases hx with
      | inl hx => exact Nat.lt_succ_of_lt (hlt x (hsub.mem hx))
      | inr hx =>
        simp only [List.mem_singleton] at hx
        omega

theorem traceRun_inv (maxsize : ℕ) (ops : List QOp) : TraceInv (traceRun maxsize ops) := by
  suffices h : ∀ s : TraceState, TraceInv s → TraceInv (ops.foldl (traceStep maxsize) s) by
    exact h ⟨[], [], 0⟩ ⟨by simp, by simp⟩
  induction ops with
  | nil => intro s hs; simpa using hs
  | cons op t ih =>
    intro s hs
    simp only [List.foldl_cons]
    exact ih _ (traceStep_inv maxsize s op hs)

/-- C2: over any interleaved sequence of puts and takes on a
`CircularQueue` of any capacity, the taken indices (in take order) together
with the still-queued indices are strictly increasing in put order: if A is
put before B and neither is evicted before being taken, A is taken before
B. Concretely, on a capacity-2 queue, put(1), put(2), put(3) leaves the
queue [2, 3]; takes then yield 2, then 3, then the empty result. -/
theorem circularQueue_fifo (maxsize : ℕ) (ops : List QOp) :
    ((traceRun maxsize ops).taken ++ (traceRun maxsize ops).q).Pairwise (· < ·) ∧
    putAll 2 [] [1, 2, 3] = [2, 3] ∧
    takeQ ([2, 3] : List ℕ) = some (2, [3]) ∧
    takeQ ([3] : List ℕ) = some (3, []) ∧
    takeQ ([] : List ℕ) = none :=
  ⟨(traceRun_inv maxsize ops).1, by decide, by decide, by decide, by decide⟩

/-! Controller.get_nowait (thorlabs_cam.py lines 173-181)

```
try:
    return self._image_queue.get_nowait()
except queue.Empty:
    return (None, None)
```

The queue holds `(image_np, frame_cnt)` tuples. The returned Python value
is either such a 2-tuple (both components non-None) or the literal tuple
`(None, None)`; the bare value `None` is never returned. `PyRet`
distinguishes these Python results. -/

/-- The Python value returned by `ThorlabsCameraController.get_nowait`:
either the bare `None` or a 2-tuple whose components may each be `None`. -/
inductive PyRet where
  | bareNone
  | pair (img : Option ℕ) (seq : Option ℕ)
deriving DecidableEq

/-- Model of `ThorlabsCameraController.get_nowait`: it delegates to the base class
`queue.Queue.get_nowait`, which removes and returns the oldest enqueued
`(image_np, frame_cnt)` tuple; when the queue is empty the raised
`queue.Empty` is caught and the tuple `(None, None)` is returned. Returns
the Python result together with the queue left behind. -/
def get_nowait (q : List (ℕ × ℕ)) : PyRet × List (ℕ × ℕ) :=
  match takeQ q with
  | none => (PyRet.pair none none, q)
  | some ((img, seq), t) => (PyRet.pair (some img) (some seq), t)

/-- A two-element queue built by two `CircularQueue.put`s: (10, 0) was
enqueued first, then (20, 1); the most recently enqueued pair is (20, 1). -/
def twoItemQueue : List (ℕ × ℕ) := putQ 2 (putQ 2 [] (10, 0)) (20, 1)

/-- C3 counterexample: on the non-empty queue holding (10, 0) then (20, 1),
`get_nowait` returns (10, 0) — the oldest pair — not the most recently
enqueued pair (20, 1). -/
theorem get_nowait_not_most_recent :
    twoItemQueue = [(10, 0), (20, 1)] ∧
    (get_nowait twoItemQueue).1 = PyRet.pair (some 10) (some 0) ∧
    (get_nowait twoItemQueue).1 ≠ PyRet.pair (some 20) (some 1) := by
  refine ⟨by decide, by decide, by decide⟩

/-- C3 (amended): for every non-empty queue state, `get_nowait` returns the
oldest enqueued (frame, sequence) pair — the head of the queue — and
removes it from the queue. -/
theorem get_nowait_returns_oldest (img seq : ℕ) (t : List (ℕ × ℕ))
    (q : List (ℕ × ℕ)) (h : q = (img, seq) :: t) :
    get_nowait q = (PyRet.pair (some img) (some seq), t) := by
  subst h
  rfl

/-- C3 (amended) witness: on the queue [(10, 0), (20, 1)], `get_nowait`
returns (10, 0) and leaves [(20, 1)]. -/
theorem get_nowait_returns_oldest_witness :
    get_nowait [(10, 0), (20, 1)]
      = (PyRet.pair (some 10) (some 0), [(20, 1)]) :=
  get_nowait_returns_oldest 10 0 [(20, 1)] [(10, 0), (20, 1)] rfl

/-- C4 counterexample: on the empty queue, `get_nowait` does not return the
bare sentinel `None`; it returns the 2-tuple `(None, None)`. -/
theorem get_nowait_empty_not_bare_none :
    (get_nowait []).1 ≠ PyRet.bareNone := by
  decide

/-- C4 (amended): when the internal queue is empty, `get_nowait` returns
the 2-tuple `(None, None)` — the `queue.Empty` exception is caught, so the
call neither raises nor blocks — and the queue stays empty. -/
theorem get_nowait_empty_pair_none :
    get_nowait [] = (PyRet.pair none none, []) := by
  decide

/-- C10: every call to `get_nowait` returns a 2-tuple, never the bare value
`None`: on an empty queue it returns exactly the pair `(None, None)`, and on
a non-empty queue it returns the enqueued pair with both components
present, so a caller that unpacks two values never fails. -/
theorem get_nowait_always_pair (q : List (ℕ × ℕ)) :
    (get_nowait q).1 ≠ PyRet.bareNone ∧
    (q = [] → (get_nowait q).1 = PyRet.pair none none) ∧
    (∀ img seq t, q = (img, seq) :: t →
      (get_nowait q).1 = PyRet.pair (some img) (some seq)) := by
  cases q with
  | nil => exact ⟨by decide, fun _ => rfl, fun img seq t h => by simp at h⟩
  | cons x t =>
    refine ⟨?_, fun h => by simp at h, ?_⟩
    · obtain ⟨a, b⟩ := x
      simp [get_nowait, takeQ]
    · intro img seq t' h
      rw [h]
      rfl

/-- C10 witness: on the queue [(3, 0)] the returned pair is
(some 3, some 0). -/
theorem get_nowait_always_pair_witness :
    (get_nowait [(3, 0)]).1 = PyRet.pair (some 3) (some 0) :=
  (get_nowait_always_pair [(3, 0)]).2.2 3 0 [] rfl

/-! Monochrome conversion (thorlabs_cam.py lines 93-100)

`_process_frame`, monochrome path:
```
scaled_image = frame.image_buffer >> (self._bit_depth - 8)
return scaled_image.astype(np.uint8)
```
Per raw sample value `v` at bit depth `b`: right-shift by `b - 8`, then the
`astype(np.uint8)` cast truncates to the low 8 bits (value mod 256). -/

/-- One monochrome raw sample through `_process_frame`: shift right by
`bit_depth - 8`, then narrow to `uint8` (truncation mod 256). -/
def monoSample (v bit_depth : ℕ) : ℕ :=
  (v >>> (bit_depth - 8)) % 256

/-- C6: for every raw monochrome sample `v < 2^b` with bit depth `b ≥ 8`,
the produced 8-bit sample equals `v >>> (b - 8)` — the `uint8` narrowing
loses nothing beyond the shift — and in particular at b = 12, v = 4095
maps to 255 and v = 0 maps to 0. -/
theorem monoSample_eq_shift (v b : ℕ) (hb : 8 ≤ b) (hv : v < 2 ^ b) :
    monoSample v b = v >>> (b - 8) ∧
    monoSample 4095 12 = 255 ∧
    monoSample 0 12 = 0 := by
  refine ⟨?_, by decide, by decide⟩
  unfold monoSample
  rw [Nat.shiftRight_eq_div_pow]
  apply Nat.mod_eq_of_lt
  rw [Nat.div_lt_iff_lt_mul (Nat.pos_pow_of_pos _ (by norm_num))]
  calc v < 2 ^ b := hv
    _ = 2 ^ (8 + (b - 8)) := by rw [Nat.add_sub_cancel' hb]
    _ = 256 * 2 ^ (b - 8) := by rw [pow_add]; norm_num

/-- C6 witness: b = 12, v = 4095. -/
theorem monoSample_eq_shift_witness :
    monoSample 4095 12 = 4095 >>> (12 - 8) ∧
    monoSample 4095 12 = 255 ∧
    monoSample 0 12 = 0 :=
  monoSample_eq_shift 4095 12 (by decide) (by decide)

/-! Controller lifecycle: close (lines 183-197) and the constructor
(lines 135-171)

`close` releases whatever the three instance attributes still reference:
```
if self._acquisition_thread:
    self._acquisition_thread.stop(); self._acquisition_thread.join()
if self._camera:
    if self._camera.is_armed: self._camera.disarm()
    self._camera.dispose()
if self._sdk:
    self._sdk.dispose()
```
Note that `close` never sets `_acquisition_thread`, `_camera` or `_sdk`
back to `None`, so the attributes keep referencing the released objects. -/

/-- An observable resource action performed by the controller. -/
inductive CAction where
  | initSDK
  | discoverCams
  | openCam (index : ℕ)
  | startThread
  | armCam
  | softwareTrigger
  | stopThread
  | joinThread
  | disarm
  | disposeCamera
  | disposeSDK
deriving DecidableEq, BEq

/-- The controller's three resource attributes, as set by the constructor:
`_sdk` (present or `None`), `_camera` (`None`, or a handle carrying the
SDK-side armed flag), `_acquisition_thread` (present or `None`). -/
structure CtrlState where
  sdk : Bool
  camera : Option Bool
  thread : Bool
deriving DecidableEq

/-- Model of `ThorlabsCameraController.close`: stop and join the thread when the
attribute is set, disarm the camera when armed and dispose it when the
attribute is set, dispose the SDK when the attribute is set. Disarming
clears the SDK-side armed flag; no attribute is ever reset to `None`.
Returns the post-call attribute state and the released-resource actions in
order. -/
def closeCtrl (s : CtrlState) : CtrlState × List CAction :=
  let threadActs := if s.thread then [CAction.stopThread, CAction.joinThread] else []
  let cam : Option Bool × List CAction :=
    match s.camera with
    | none => (none, [])
    | some armed =>
      (some false, (if armed then [CAction.disarm] else []) ++ [CAction.disposeCamera])
  let sdkActs := if s.sdk then [CAction.disposeSDK] else []
  (⟨s.sdk, cam.1, s.thread⟩, threadActs ++ cam.2 ++ sdkActs)

/-- The attribute state right after `self._sdk = TLCameraSDK()` succeeds in
the constructor, before any camera is opened or thread created. -/
def sdkOnlyState : CtrlState := ⟨true, none, false⟩

/-- The fully initialized attribute state after a successful constructor:
SDK present, camera open and armed, acquisition thread started. -/
def streamingState : CtrlState := ⟨true, some true, true⟩

/-- C5 counterexample: calling `close` twice in a row on a fully
initialized controller releases the camera and the SDK twice, not at most
once — `close` leaves `_camera` and `_sdk` set, so the second call disposes
them again. -/
theorem close_twice_double_release :
    List.count CAction.disposeCamera
      ((closeCtrl streamingState).2 ++ (closeCtrl (closeCtrl streamingState).1).2) = 2 ∧
    List.count CAction.disposeSDK
      ((closeCtrl streamingState).2 ++ (closeCtrl (closeCtrl streamingState).1).2) = 2 := by
  decide

/-- C5 (amended): a single `close` call releases each resource at most
once and skips missing or never-created resources without error — in
particular, after a constructor that failed with only the SDK created,
`close` disposes just the SDK. But `close` does not clear its attributes,
so a second call repeats the still-referenced releases: over two
consecutive calls the camera and SDK are each disposed once per call (the
disarm alone is not repeated, as the first call disarmed the camera),
rather than at most once overall. -/
theorem close_per_call_release (s : CtrlState) :
    List.count CAction.disposeSDK (closeCtrl s).2 = (if s.sdk then 1 else 0) ∧
    List.count CAction.disposeCamera (closeCtrl s).2 = (if s.camera.isSome then 1 else 0) ∧
    List.count CAction.joinThread (closeCtrl s).2 = (if s.thread then 1 else 0) ∧
    closeCtrl sdkOnlyState = (sdkOnlyState, [CAction.disposeSDK]) ∧
    List.count CAction.disposeCamera
      ((closeCtrl s).2 ++ (closeCtrl (closeCtrl s).1).2)
      = (if s.camera.isSome then 2 else 0) ∧
    List.count CAction.disposeSDK
      ((closeCtrl s).2 ++ (closeCtrl (closeCtrl s).1).2)
      = (if s.sdk then 2 else 0) := by
  obtain ⟨sdk, cam, thr⟩ := s
  cases sdk <;> cases thr <;> rcases cam with _ | armed
  · decide
  · cases armed <;> decide
  · decide
  · cases armed <;> decide
  · decide
  · cases armed <;> decide
  · decide
  · cases armed <;> decide

/-- The errors the constructor raises itself before opening a camera. -/
inductive InitErr where
  | noCameras
  | indexOutOfRange
deriving DecidableEq

/-- Model of `ThorlabsCameraController.__init__`: the four attributes start as
`None`, then inside `try`: create the SDK, discover cameras, raise
`ConnectionError` on an empty list, raise `IndexError` when
`camera_index >= len(camera_list)`; otherwise open the camera, create and
start the acquisition thread, configure, arm and software-trigger the
camera. The `except` clause runs `self.close()` on the attributes created
so far and re-raises. The model takes the number of enumerated devices as
input and returns the outcome together with the resource actions in
order. -/
def initCtrl (numCameras camera_index : ℕ) : Except InitErr CtrlState × List CAction :=
  if numCameras = 0 then
    (Except.error InitErr.noCameras,
      [CAction.initSDK, CAction.discoverCams] ++ (closeCtrl sdkOnlyState).2)
  else if numCameras ≤ camera_index then
    (Except.error InitErr.indexOutOfRange,
      [CAction.initSDK, CAction.discoverCams] ++ (closeCtrl sdkOnlyState).2)
  else
    (Except.ok streamingState,
      [CAction.initSDK, CAction.discoverCams, CAction.openCam camera_index,
       CAction.startThread, CAction.armCam, CAction.softwareTrigger])

/-- C8: when the constructor runs with a non-empty device list and
`camera_index` at least the device count, it fails with the
index-out-of-range error, no camera is opened and no acquisition thread is
started, and the emitted actions end with exactly the cleanup `close`
performs on the SDK-only partial state before the failure reaches the
caller. -/
theorem init_index_out_of_range (numCameras camera_index : ℕ)
    (hne : 0 < numCameras) (hix : numCameras ≤ camera_index) :
    (initCtrl numCameras camera_index).1 = Except.error InitErr.indexOutOfRange ∧
    (∀ j, CAction.openCam j ∉ (initCtrl numCameras camera_index).2) ∧
    CAction.startThread ∉ (initCtrl numCameras camera_index).2 ∧
    (initCtrl numCameras camera_index).2
      = [CAction.initSDK, CAction.discoverCams] ++ (closeCtrl sdkOnlyState).2 := by
  have h0 : numCameras ≠ 0 := by omega
  have hEq : initCtrl numCameras camera_index
      = (Except.error InitErr.indexOutOfRange,
         [CAction.initSDK, CAction.discoverCams] ++ (closeCtrl sdkOnlyState).2) := by
    simp [initCtrl, h0, hix]
  rw [hEq]
  refine ⟨rfl, ?_, ?_, rfl⟩
  · intro j
    simp [closeCtrl, sdkOnlyState]
  · simp [closeCtrl, sdkOnlyState]

/-- C8 witness: camera_index = 5 with 2 enumerated devices. -/
theorem init_index_out_of_range_witness :
    (initCtrl 2 5).1 = Except.error InitErr.indexOutOfRange ∧
    (∀ j, CAction.openCam j ∉ (initCtrl 2 5).2) ∧
    CAction.startThread ∉ (initCtrl 2 5).2 ∧
    (initCtrl 2 5).2
      = [CAction.initSDK, CAction.discoverCams] ++ (closeCtrl sdkOnlyState).2 :=
  init_index_out_of_range 2 5 (by decide) (by decide)

/-! The acquisition loop, `_ImageAcquisitionThread.run` (lines 102-120)

```
self._frame_cnt = 0
while not self._stop_event.is_set():
    try:
        frame = self._camera.get_pending_frame_or_null()
        if frame is not None:
            image_np = self._process_frame(frame)
            self._image_queue.put_nowait((image_np, self._frame_cnt))
            self._frame_cnt += 1
    except queue.Full: pass
    except Exception as e: print(...); break
print(...)
if self._is_color:
    if self._mono_to_color_processor: self._mono_to_color_processor.dispose()
    if self._mono_to_color_sdk: self._mono_to_color_sdk.dispose()
```

One loop iteration either polls null, produces a processed frame, or
raises (from polling or `_process_frame`) and breaks. The input event list
is the sequence of iterations until the stop flag is observed; the queue
has capacity 2 (`CircularQueue(maxsize=2)`). `CircularQueue.put` never
raises `queue.Full`, so that handler is dead and every produced frame is
enqueued and counted. -/

/-- One iteration of the acquisition loop as seen from outside:
`nullPoll` (no pending frame), `frameEv v` (a frame with processed pixel
value `v` is produced), or `fault` (polling or processing raised an
unexpected exception). -/
inductive AcqEv where
  | nullPoll
  | frameEv (v : ℕ)
  | fault
deriving DecidableEq

/-- Whether an iteration event is not a fault. -/
def notFault : AcqEv → Bool
  | AcqEv.fault => false
  | _ => true

/-- Result of running the loop body: the image queue of
`(image_np, frame_cnt)` pairs, the sequence numbers attached to produced
frames in production order, and whether the loop exited through the
exception `break`. -/
structure AcqResult where
  q : List (ℕ × ℕ)
  tags : List ℕ
  faulted : Bool
deriving DecidableEq

/-- The acquisition `while` loop: on a produced frame `put_nowait` the pair
into the capacity-2 `CircularQueue` tagged with `_frame_cnt`, then
increment the counter; on a null poll continue; on an unexpected exception
break at once, leaving the queue and counter as they are. -/
def runAcqAux (q : List (ℕ × ℕ)) (cnt : ℕ) (tags : List ℕ) : List AcqEv → AcqResult
  | [] => ⟨q, tags, false⟩
  | AcqEv.nullPoll :: rest => runAcqAux q cnt tags rest
  | AcqEv.frameEv v :: rest => runAcqAux (putQ 2 q (v, cnt)) (cnt + 1) (tags ++ [cnt]) rest
  | AcqEv.fault :: _ => ⟨q, tags, true⟩

/-- Run the acquisition loop from `self._frame_cnt = 0` and an empty
queue. -/
def runAcq (evs : List AcqEv) : AcqResult := runAcqAux [] 0 [] evs

/-- The color-conversion resources the acquisition thread can release
after its loop exits. -/
inductive ColorRes where
  | disposeColorProc
  | disposeColorSDK
deriving DecidableEq, BEq

/-- The releases the thread performs after the loop exits, on every exit
path: when the sensor is color, dispose `_mono_to_color_processor` and
`_mono_to_color_sdk` (each attribute was created in the thread constructor
exactly when the sensor is color, and each dispose is guarded by the
attribute's truthiness); for a monochrome sensor there is nothing to
release. -/
def acqReleases (is_color : Bool) : List ColorRes :=
  if is_color then
    (if is_color then [ColorRes.disposeColorProc] else []) ++
    (if is_color then [ColorRes.disposeColorSDK] else [])
  else []

/-- The acquisition thread from loop entry to thread exit: run the loop
over the iteration events, then release the color resources. -/
def runThread (is_color : Bool) (evs : List AcqEv) : AcqResult × List ColorRes :=
  (runAcq evs, acqReleases is_color)

theorem range_map_shift (m k : ℕ) :
    (List.range (k + 1)).map (m + ·) = m :: (List.range k).map (m + 1 + ·) := by
  rw [List.range_succ_eq_map]
  simp only [List.map_cons, Nat.add_zero, List.map_map]
  congr 1
  apply List.map_congr_left
  intro a _
  simp only [Function.comp_apply]
  omega

theorem runAcqAux_tags (evs : List AcqEv) :
    ∀ (q : List (ℕ × ℕ)) (cnt : ℕ) (tags : List ℕ),
    ∃ k, (runAcqAux q cnt tags evs).tags = tags ++ (List.range k).map (cnt + ·) := by
  induction evs with
  | nil => intro q cnt tags; exact ⟨0, by simp [runAcqAux]⟩
  | cons e rest ih =>
    intro q cnt tags
    cases e with
    | nullPoll => simpa [runAcqAux] using ih q cnt tags
    | fault => exact ⟨0, by simp [runAcqAux]⟩
    | frameEv v =>
      obtain ⟨k, hk⟩ := ih (putQ 2 q (v, cnt)) (cnt + 1) (tags ++ [cnt])
      refine ⟨k + 1, ?_⟩
      simp only [runAcqAux]
      rw [hk, range_map_shift, List.append_assoc, List.singleton_append]

/-- C7: over any execution of the acquisition loop, the sequence numbers
attached to produced frames are exactly 0, 1, 2, ... in order — they start
at 0 and increase by exactly 1 per produced frame, with no duplicates and
no resets, independent of queue evictions. -/
theorem acq_sequence_numbers (evs : List AcqEv) :
    (runAcq evs).tags = List.range (runAcq evs).tags.length := by
  obtain ⟨k, hk⟩ := runAcqAux_tags evs [] 0 []
  unfold runAcq
  rw [hk]
  simp

theorem runAcqAux_takeWhile (evs : List AcqEv) :
    ∀ (q : List (ℕ × ℕ)) (cnt : ℕ) (tags : List ℕ),
    (runAcqAux q cnt tags (evs.takeWhile notFault)).q = (runAcqAux q cnt tags evs).q ∧
    (runAcqAux q cnt tags (evs.takeWhile notFault)).tags = (runAcqAux q cnt tags evs).tags := by
  induction evs with
  | nil => intro q cnt tags; exact ⟨rfl, rfl⟩
  | cons e rest ih =>
    intro q cnt tags
    cases e with
    | nullPoll =>
      simpa [List.takeWhile_cons, notFault, runAcqAux] using ih q cnt tags
    | frameEv v =>
      simpa [List.takeWhile_cons, notFault, runAcqAux] using
        ih (putQ 2 q (v, cnt)) (cnt + 1) (tags ++ [cnt])
    | fault =>
      simp [List.takeWhile_cons, notFault, runAcqAux]

/-- C9: on every termination of the acquisition loop — the event list
ending (stop request observed) or a fault event (unexpected polling or
processing error, which breaks out of the loop instead of propagating) —
the thread releases the mono-to-color processor and its SDK exactly once
when the sensor is color and releases nothing otherwise, independent of
the exit path; and the queue (and the produced tags) after the run equal
those of the fault-free prefix of the events, so frames enqueued before a
fault remain in the queue. -/
theorem acq_termination_releases (is_color : Bool) (evs : List AcqEv) :
    List.count ColorRes.disposeColorProc (runThread is_color evs).2
      = (if is_color then 1 else 0) ∧
    List.count ColorRes.disposeColorSDK (runThread is_color evs).2
      = (if is_color then 1 else 0) ∧
    (runThread is_color evs).2 = acqReleases is_color ∧
    (runThread is_color evs).1.q = (runAcq (evs.takeWhile notFault)).q ∧
    (runThread is_color evs).1.tags = (runAcq (evs.takeWhile notFault)).tags := by
  obtain ⟨hq, ht⟩ := runAcqAux_takeWhile evs [] 0 []
  refine ⟨?_, ?_, rfl, ?_, ?_⟩
  · change List.count ColorRes.disposeColorProc (acqReleases is_color) = _
    cases is_color <;> decide
  · change List.count ColorRes.disposeColorSDK (acqReleases is_color) = _
    cases is_color <;> decide
  · exact hq.symm
  · exact ht.symm

end ThorlabsCam
